import Mathlib

/-!
Verification development for the subprocess execution and cancellation engine
and the idempotent container-filesystem transfer algorithm of `src/docker.rs`.

The stateful Rust code is embedded shallowly: the shared Cancellation Flag
(`running : &Arc<AtomicBool>`) becomes an explicit `Bool` threaded through
each operation, the behavior of the external child process becomes an
inductive "world" argument (spawn failures, exit statuses, captured output
bytes), and the host filesystem becomes an inductive tree with executable
models of `create_dir_all`, `rename`, `metadata`, `WalkDir` and the native
`docker container cp` primitive.
-/

namespace Docker

/-! ### Bytes and lossy UTF-8 decoding (`String::from_utf8_lossy`) -/

/-- The Unicode replacement character U+FFFD emitted for invalid sequences. -/
def replacementChar : Char := Char.ofNat 0xFFFD

/-- Whether a byte is a UTF-8 continuation byte (`0x80..=0xBF`). -/
def isCont (b : Nat) : Bool := 0x80 ≤ b && b ≤ 0xBF

/-- Admissible first continuation byte after a three-byte lead `b`. -/
def validCont3 (b b1 : Nat) : Bool :=
  if b = 0xE0 then 0xA0 ≤ b1 && b1 ≤ 0xBF
  else if b = 0xED then 0x80 ≤ b1 && b1 ≤ 0x9F
  else isCont b1

/-- Admissible first continuation byte after a four-byte lead `b`. -/
def validCont4 (b b1 : Nat) : Bool :=
  if b = 0xF0 then 0x90 ≤ b1 && b1 ≤ 0xBF
  else if b = 0xF4 then 0x80 ≤ b1 && b1 ≤ 0x8F
  else isCont b1

/-- Lossy UTF-8 decoding of a byte sequence into characters, replacing each
maximal invalid subpart with U+FFFD, following Rust's
`String::from_utf8_lossy`. -/
def lossyChars : List Nat → List Char
  | [] => []
  | b :: rest =>
    if b < 0x80 then Char.ofNat b :: lossyChars rest
    else if 0xC2 ≤ b && b ≤ 0xDF then
      match h1 : rest with
      | [] => [replacementChar]
      | b1 :: rest1 =>
        if isCont b1 then
          Char.ofNat ((b - 0xC0) * 0x40 + (b1 - 0x80)) :: lossyChars rest1
        else replacementChar :: lossyChars rest
    else if 0xE0 ≤ b && b ≤ 0xEF then
      match h1 : rest with
      | [] => [replacementChar]
      | b1 :: rest1 =>
        if validCont3 b b1 then
          match h2 : rest1 with
          | [] => [replacementChar]
          | b2 :: rest2 =>
            if isCont b2 then
              Char.ofNat ((b - 0xE0) * 0x1000 + (b1 - 0x80) * 0x40 + (b2 - 0x80)) ::
                lossyChars rest2
            else replacementChar :: lossyChars rest1
        else replacementChar :: lossyChars rest
    else if 0xF0 ≤ b && b ≤ 0xF4 then
      match h1 : rest with
      | [] => [replacementChar]
      | b1 :: rest1 =>
        if validCont4 b b1 then
          match h2 : rest1 with
          | [] => [replacementChar]
          | b2 :: rest2 =>
            if isCont b2 then
              match h3 : rest2 with
              | [] => [replacementChar]
              | b3 :: rest3 =>
                if isCont b3 then
                  Char.ofNat ((b - 0xF0) * 0x40000 + (b1 - 0x80) * 0x1000 +
                      (b2 - 0x80) * 0x40 + (b3 - 0x80)) :: lossyChars rest3
                else replacementChar :: lossyChars rest2
            else replacementChar :: lossyChars rest1
        else replacementChar :: lossyChars rest
    else replacementChar :: lossyChars rest
termination_by l => l.length
decreasing_by all_goals simp_arith [*]

/-- `String::from_utf8_lossy(bytes).to_string()`. -/
def fromUtf8Lossy (l : List Nat) : String := String.mk (lossyChars l)

/-- Whether a character has the Unicode `White_Space` property, as tested by
Rust's `char::is_whitespace`. -/
def rustIsWhitespace (c : Char) : Bool :=
  (0x09 ≤ c.toNat && c.toNat ≤ 0x0D) || c.toNat = 0x20 || c.toNat = 0x85 ||
  c.toNat = 0xA0 || c.toNat = 0x1680 ||
  (0x2000 ≤ c.toNat && c.toNat ≤ 0x200A) ||
  c.toNat = 0x2028 || c.toNat = 0x2029 || c.toNat = 0x202F ||
  c.toNat = 0x205F || c.toNat = 0x3000

/-- Rust's `str::trim`: remove leading and trailing whitespace. -/
def rustTrim (s : String) : String :=
  String.mk (((s.data.dropWhile rustIsWhitespace).reverse.dropWhile
    rustIsWhitespace).reverse)

/-! ### The process execution engine -/

/-- Modelled from the spec: the fixed interruption message
`super::INTERRUPT_MESSAGE`, defined in the parent module (outside the file
under verification). The spec describes it only as "a single fixed
'interrupted' message"; its exact text does not matter below, only that it is
one fixed string. -/
def INTERRUPT_MESSAGE : String := "Interrupted."

/-- Exit status of a finished child process: either a normal exit with a
status code, or termination by a signal (in which case `ExitStatus::code()`
returns `None`). -/
inductive ExitStatus
  | exited (code : Int)
  | signaled

/-- Rust's `ExitStatus::success()`: the code is present and zero. -/
def ExitStatus.success : ExitStatus → Bool
  | .exited c => c == 0
  | .signaled => false

/-- Rust's `ExitStatus::code()`: `None` exactly when killed by a signal. -/
def ExitStatus.code : ExitStatus → Option Int
  | .exited c => some c
  | .signaled => none

/-- Outcome of `Command::output()` as observed by `run_quiet`: either the OS
failed to launch the child, or the child finished with an exit status and
captured standard output/error bytes. -/
inductive SpawnOutcome
  | ioError (details : String)
  | completed (status : ExitStatus) (stdout : List Nat) (stderr : List Nat)

/-- Outcome of `Child::wait_with_output()` in `run_quiet_stdin`. -/
inductive WaitOutcome
  | ioError (details : String)
  | completed (status : ExitStatus) (stdout : List Nat) (stderr : List Nat)

/-- Outcome of `Command::spawn()` in `run_quiet_stdin`: either a spawn error
or a spawned child whose eventual wait outcome is given. -/
inductive StdinChild
  | spawnError (details : String)
  | spawned (wait : WaitOutcome)

/-- Outcome of `Child::wait()` in `run_loud_stdin` (streams inherited, so no
captured output). -/
inductive LoudWait
  | ioError (details : String)
  | waited (status : ExitStatus)

/-- Outcome of `Command::spawn()` in `run_loud_stdin`. -/
inductive LoudChild
  | spawnError (details : String)
  | spawned (wait : LoudWait)

/-- Outcome of `Command::status()` in `run_attach`. -/
inductive AttachOutcome
  | ioError (details : String)
  | completed (status : ExitStatus)

/-- `run_quiet`: run a command with null stdin and captured output, classify
the outcome, and return the result together with the updated Cancellation
Flag. The spinner guard only concerns terminal rendering and has no effect on
the result or the flag. -/
def run_quiet (spinner_message error : String) (args : List String)
    (child : SpawnOutcome) (running : Bool) : Except String String × Bool :=
  match child with
  | .ioError e => (.error (error ++ "\nDetails: " ++ e), running)
  | .completed status out errBytes =>
    if status.success then
      (.ok (fromUtf8Lossy out), running)
    else if status.code.isNone then
      (.error INTERRUPT_MESSAGE, false)
    else
      (.error (error ++ "\nDetails: " ++ fromUtf8Lossy errBytes), running)

/-- `run_quiet_stdin`: like `run_quiet` but the child is spawned with a piped
standard input fed by a caller-supplied writer callback, whose result (run
only if the spawn succeeded) is given as `writer`. -/
def run_quiet_stdin (spinner_message error : String) (args : List String)
    (writer : Except String Unit) (child : StdinChild) (running : Bool) :
    Except String String × Bool :=
  match child with
  | .spawnError e => (.error (error ++ "\nDetails: " ++ e), running)
  | .spawned wait =>
    match writer with
    | .error we => (.error we, running)
    | .ok _ =>
      match wait with
      | .ioError e => (.error (error ++ "\nDetails: " ++ e), running)
      | .completed status out errBytes =>
        if status.success then
          (.ok (fromUtf8Lossy out), running)
        else if status.code.isNone then
          (.error INTERRUPT_MESSAGE, false)
        else
          (.error (error ++ "\nDetails: " ++ fromUtf8Lossy errBytes), running)

/-- `run_loud_stdin`: piped standard input fed by a writer callback, output
and error streams inherited; on an engine-reported failure the error is the
bare operation message (no captured diagnostics). -/
def run_loud_stdin (error : String) (args : List String)
    (writer : Except String Unit) (child : LoudChild) (running : Bool) :
    Except String Unit × Bool :=
  match child with
  | .spawnError e => (.error (error ++ "\nDetails: " ++ e), running)
  | .spawned wait =>
    match writer with
    | .error we => (.error we, running)
    | .ok _ =>
      match wait with
      | .ioError e => (.error (error ++ "\nDetails: " ++ e), running)
      | .waited status =>
        if status.success then
          (.ok (), running)
        else if status.code.isNone then
          (.error INTERRUPT_MESSAGE, false)
        else
          (.error error, running)

/-- `run_attach`: all three standard streams inherited. -/
def run_attach (error : String) (args : List String)
    (child : AttachOutcome) (running : Bool) : Except String Unit × Bool :=
  match child with
  | .ioError e => (.error (error ++ "\nDetails: " ++ e), running)
  | .completed status =>
    if status.success then
      (.ok (), running)
    else if status.code.isNone then
      (.error INTERRUPT_MESSAGE, false)
    else
      (.error error, running)

/-- `image_exists`: a failed `docker image inspect` counts as "the image does
not exist" only if the Cancellation Flag is still true after the call;
otherwise the failure is re-surfaced. -/
def image_exists (image : String) (child : SpawnOutcome) (running : Bool) :
    Except String Bool × Bool :=
  match run_quiet "Checking existence of image..." "The image doesn't exist."
      ["image", "inspect", image] child running with
  | (.error e, running1) =>
    if running1 then (.ok false, running1) else (.error e, running1)
  | (.ok _, running1) => (.ok true, running1)

/-- `create_container`: the new container's identifier is the captured
standard output of `docker container create`, trimmed. -/
def create_container (image : String) (child : SpawnOutcome) (running : Bool) :
    Except String String × Bool :=
  match run_quiet "Creating container..." "Unable to create container."
      ["container", "create", "--init", "--interactive", image, "/bin/sh"]
      child running with
  | (.ok out, running1) => (.ok (rustTrim out), running1)
  | (.error e, running1) => (.error e, running1)

/-- `copy_into_container`: streams a tar archive into `docker container cp`
via the stdin writer callback; `ioCopyError` is the failure detail of the
`io::copy` call inside the callback, if it failed. -/
def copy_into_container (container : String) (ioCopyError : Option String)
    (child : StdinChild) (running : Bool) : Except String Unit × Bool :=
  let writer : Except String Unit :=
    match ioCopyError with
    | some e => .error ("Unable to copy files into the container. Details: " ++ e)
    | none => .ok ()
  match run_quiet_stdin "Copying files into container..."
      "Unable to copy files into the container."
      ["container", "cp", "-", container ++ ":/"] writer child running with
  | (.ok _, running1) => (.ok (), running1)
  | (.error e, running1) => (.error e, running1)

/-! ### Engine lemmas: how each mode updates the Cancellation Flag -/

/-- The flag after `run_quiet` is either unchanged or `false`. -/
theorem run_quiet_flag (msg err : String) (args : List String)
    (child : SpawnOutcome) (running : Bool) :
    (run_quiet msg err args child running).2 = running ∨
      (run_quiet msg err args child running).2 = false := by
  cases child with
  | ioError e => exact Or.inl rfl
  | completed status out errb =>
    by_cases h : status.success = true
    · simp [run_quiet, h]
    · by_cases h2 : status.code.isNone = true
      · simp [run_quiet, h, h2]
      · simp [run_quiet, h, h2]

/-- The flag after `run_quiet_stdin` is either unchanged or `false`. -/
theorem run_quiet_stdin_flag (msg err : String) (args : List String)
    (w : Except String Unit) (child : StdinChild) (running : Bool) :
    (run_quiet_stdin msg err args w child running).2 = running ∨
      (run_quiet_stdin msg err args w child running).2 = false := by
  cases child with
  | spawnError e => exact Or.inl rfl
  | spawned wait =>
    cases w with
    | error we => exact Or.inl rfl
    | ok u =>
      cases wait with
      | ioError e => exact Or.inl rfl
      | completed status out errb =>
        by_cases h : status.success = true
        · simp [run_quiet_stdin, h]
        · by_cases h2 : status.code.isNone = true
          · simp [run_quiet_stdin, h, h2]
          · simp [run_quiet_stdin, h, h2]

/-- The flag after `run_loud_stdin` is either unchanged or `false`. -/
theorem run_loud_stdin_flag (err : String) (args : List String)
    (w : Except String Unit) (child : LoudChild) (running : Bool) :
    (run_loud_stdin err args w child running).2 = running ∨
      (run_loud_stdin err args w child running).2 = false := by
  cases child with
  | spawnError e => exact Or.inl rfl
  | spawned wait =>
    cases w with
    | error we => exact Or.inl rfl
    | ok u =>
      cases wait with
      | ioError e => exact Or.inl rfl
      | waited status =>
        by_cases h : status.success = true
        · simp [run_loud_stdin, h]
        · by_cases h2 : status.code.isNone = true
          · simp [run_loud_stdin, h, h2]
          · simp [run_loud_stdin, h, h2]

/-- The flag after `run_attach` is either unchanged or `false`. -/
theorem run_attach_flag (err : String) (args : List String)
    (child : AttachOutcome) (running : Bool) :
    (run_attach err args child running).2 = running ∨
      (run_attach err args child running).2 = false := by
  cases child with
  | ioError e => exact Or.inl rfl
  | completed status =>
    by_cases h : status.success = true
    · simp [run_attach, h]
    · by_cases h2 : status.code.isNone = true
      · simp [run_attach, h, h2]
      · simp [run_attach, h, h2]

/-- The flag after `image_exists` is either unchanged or `false`. -/
theorem image_exists_flag (image : String) (child : SpawnOutcome)
    (running : Bool) :
    (image_exists image child running).2 = running ∨
      (image_exists image child running).2 = false := by
  have h := run_quiet_flag "Checking existence of image..."
    "The image doesn't exist." ["image", "inspect", image] child running
  unfold image_exists
  rcases hq : run_quiet "Checking existence of image..."
      "The image doesn't exist." ["image", "inspect", image] child running
    with ⟨r, rn⟩
  rw [hq] at h
  cases r with
  | ok v => simpa using h
  | error e =>
    cases rn with
    | true => simpa using h
    | false => simp

/-- The flag after `create_container` is either unchanged or `false`. -/
theorem create_container_flag (image : String) (child : SpawnOutcome)
    (running : Bool) :
    (create_container image child running).2 = running ∨
      (create_container image child running).2 = false := by
  have h := run_quiet_flag "Creating container..." "Unable to create container."
    ["container", "create", "--init", "--interactive", image, "/bin/sh"]
    child running
  unfold create_container
  rcases hq : run_quiet "Creating container..." "Unable to create container."
      ["container", "create", "--init", "--interactive", image, "/bin/sh"]
      child running
    with ⟨r, rn⟩
  rw [hq] at h
  cases r with
  | ok v => simpa using h
  | error e => simpa using h

/-! ### Claim theorems for the execution engine -/

/-- C1: in every one of the four execution modes, a child that terminates
without an exit status code (killed by a signal) makes the engine store
`false` into the shared Cancellation Flag and return an error equal to
exactly the fixed interruption message, not the operation-specific error
message. -/
theorem signal_kill_latches_flag_and_interrupts
    (msg err : String) (args : List String) (out errb : List Nat)
    (running : Bool) :
    run_quiet msg err args (.completed .signaled out errb) running
      = (.error INTERRUPT_MESSAGE, false) ∧
    run_quiet_stdin msg err args (.ok ())
        (.spawned (.completed .signaled out errb)) running
      = (.error INTERRUPT_MESSAGE, false) ∧
    run_loud_stdin err args (.ok ()) (.spawned (.waited .signaled)) running
      = (.error INTERRUPT_MESSAGE, false) ∧
    run_attach err args (.completed .signaled) running
      = (.error INTERRUPT_MESSAGE, false) :=
  ⟨rfl, rfl, rfl, rfl⟩

/-- C2: in both captured modes, a child that exits with status code zero
yields `Ok` of exactly the bytes it wrote to standard output, lossily decoded
as UTF-8, with the Cancellation Flag untouched. -/
theorem captured_success_returns_lossy_stdout
    (msg err : String) (args : List String) (out errb : List Nat)
    (running : Bool) :
    run_quiet msg err args (.completed (.exited 0) out errb) running
      = (.ok (fromUtf8Lossy out), running) ∧
    run_quiet_stdin msg err args (.ok ())
        (.spawned (.completed (.exited 0) out errb)) running
      = (.ok (fromUtf8Lossy out), running) :=
  ⟨rfl, rfl⟩

/-- C6: no operation ever writes `true` into the Cancellation Flag: the flag
coming out of any of the four execution modes (and of the operations built on
them) is either the incoming value or `false`, so once the flag is `false` it
stays `false`. -/
theorem cancellation_flag_monotone
    (msg err image : String) (args : List String) (w : Except String Unit)
    (child : SpawnOutcome) (sc : StdinChild) (lc : LoudChild)
    (ac : AttachOutcome) (running : Bool) :
    ((run_quiet msg err args child running).2 = running ∨
      (run_quiet msg err args child running).2 = false) ∧
    ((run_quiet_stdin msg err args w sc running).2 = running ∨
      (run_quiet_stdin msg err args w sc running).2 = false) ∧
    ((run_loud_stdin err args w lc running).2 = running ∨
      (run_loud_stdin err args w lc running).2 = false) ∧
    ((run_attach err args ac running).2 = running ∨
      (run_attach err args ac running).2 = false) ∧
    ((image_exists image child running).2 = running ∨
      (image_exists image child running).2 = false) ∧
    ((create_container image child running).2 = running ∨
      (create_container image child running).2 = false) :=
  ⟨run_quiet_flag msg err args child running,
   run_quiet_stdin_flag msg err args w sc running,
   run_loud_stdin_flag err args w lc running,
   run_attach_flag err args ac running,
   image_exists_flag image child running,
   create_container_flag image child running⟩

/-- C7: a spawn failure yields the operation-specific error message augmented
with the underlying OS error text, a failure of the stdin writer callback
yields the callback's error (which the callers build as the operation message
plus the OS error detail, as `copy_into_container` shows), and in all these
cases the Cancellation Flag is left unchanged. -/
theorem launch_or_write_failure_keeps_flag
    (msg err cont e we : String) (args : List String)
    (wait : WaitOutcome) (lwait : LoudWait) (running : Bool) :
    run_quiet msg err args (.ioError e) running
      = (.error (err ++ "\nDetails: " ++ e), running) ∧
    run_quiet_stdin msg err args (.ok ()) (.spawnError e) running
      = (.error (err ++ "\nDetails: " ++ e), running) ∧
    run_quiet_stdin msg err args (.error we) (.spawned wait) running
      = (.error we, running) ∧
    run_loud_stdin err args (.ok ()) (.spawnError e) running
      = (.error (err ++ "\nDetails: " ++ e), running) ∧
    run_loud_stdin err args (.error we) (.spawned lwait) running
      = (.error we, running) ∧
    run_attach err args (.ioError e) running
      = (.error (err ++ "\nDetails: " ++ e), running) ∧
    copy_into_container cont (some e) (.spawned wait) running
      = (.error ("Unable to copy files into the container. Details: " ++ e),
         running) :=
  ⟨rfl, rfl, rfl, rfl, rfl, rfl, rfl⟩

/-- C9: every successful `create_container` call returns exactly the child's
captured standard output, lossily decoded and trimmed of leading and trailing
whitespace, and leaves the flag unchanged. -/
theorem create_container_ok_is_trimmed_stdout (image : String)
    (child : SpawnOutcome) (running r : Bool) (s : String)
    (h : create_container image child running = (.ok s, r)) :
    ∃ out errb, child = .completed (.exited 0) out errb ∧
      s = rustTrim (fromUtf8Lossy out) ∧ r = running := by
  cases child with
  | ioError e => simp [create_container, run_quiet] at h
  | completed status out errb =>
    cases status with
    | signaled =>
      simp [create_container, run_quiet, ExitStatus.success,
        ExitStatus.code] at h
    | exited c =>
      by_cases hc : c = 0
      · subst hc
        have h' : rustTrim (fromUtf8Lossy out) = s ∧ running = r := by
          simpa [create_container, run_quiet, ExitStatus.success] using h
        exact ⟨out, errb, rfl, h'.1.symm, h'.2.symm⟩
      · simp [create_container, run_quiet, ExitStatus.success,
          ExitStatus.code, hc] at h

/-- Witness for C9 at a concrete child that prints `"ab\n"` and exits 0. -/
theorem create_container_ok_is_trimmed_stdout_witness :
    ∃ out errb,
      SpawnOutcome.completed (.exited 0) [97, 98, 10] []
        = .completed (.exited 0) out errb ∧
      rustTrim (fromUtf8Lossy [97, 98, 10]) = rustTrim (fromUtf8Lossy out) ∧
      true = true :=
  create_container_ok_is_trimmed_stdout "alpine"
    (.completed (.exited 0) [97, 98, 10] []) true true
    (rustTrim (fromUtf8Lossy [97, 98, 10])) rfl

/-- C3 counterexample: if the Cancellation Flag is already `false` when
`image_exists` runs (an interrupt happened before the call) and the inspect
child exits normally with a nonzero code, the call re-surfaces the inspect
failure message, which is not the interruption error the claim promises. -/
theorem image_exists_error_not_interrupt_counterexample :
    (image_exists "img" (.completed (.exited 1) [] []) false).1
      = .error ("The image doesn't exist." ++ "\nDetails: " ++ fromUtf8Lossy []) ∧
    "The image doesn't exist." ++ "\nDetails: " ++ fromUtf8Lossy []
      ≠ INTERRUPT_MESSAGE := by
  refine ⟨rfl, ?_⟩
  decide

/-- C3 amended: a failed inspect yields `Ok false` only when the flag is
still true afterwards; when the flag is false at that point the underlying
error is re-surfaced (which is the interruption error exactly when the child
was killed by a signal — in particular a mid-check cancellation that kills
the inspect child yields the interruption error); a successful inspect yields
`Ok true`. -/
theorem image_exists_characterization (image e : String)
    (out errb : List Nat) (c : Int) (running : Bool) :
    image_exists image (.completed (.exited 0) out errb) running
      = (.ok true, running) ∧
    image_exists image (.completed .signaled out errb) running
      = (.error INTERRUPT_MESSAGE, false) ∧
    (c ≠ 0 → image_exists image (.completed (.exited c) out errb) true
      = (.ok false, true)) ∧
    (c ≠ 0 → image_exists image (.completed (.exited c) out errb) false
      = (.error ("The image doesn't exist." ++ "\nDetails: " ++
          fromUtf8Lossy errb), false)) ∧
    image_exists image (.ioError e) true = (.ok false, true) ∧
    image_exists image (.ioError e) false
      = (.error ("The image doesn't exist." ++ "\nDetails: " ++ e), false) := by
  refine ⟨rfl, rfl, ?_, ?_, rfl, rfl⟩
  · intro hc
    simp [image_exists, run_quiet, ExitStatus.success, ExitStatus.code, hc]
  · intro hc
    simp [image_exists, run_quiet, ExitStatus.success, ExitStatus.code, hc]

/-- Witness for C3's amended characterization at a concrete nonzero exit. -/
theorem image_exists_characterization_witness :
    image_exists "img" (.completed (.exited 1) [] []) true = (.ok false, true) :=
  (image_exists_characterization "img" "" [] [] 1 true).2.2.1 (by decide)

/-! ### Filesystem model for the container filesystem transfer

Paths are lists of components (`PathBuf::join` is list append, the
filesystem root is `[]`). A filesystem is a finite tree of directories and
files; the host filesystem, the container filesystem and the temporary
staging directory are all such trees. -/

/-- A filesystem path, as its list of components below the root. -/
abbrev FsPath := List String

/-- A node of a filesystem tree: a file with contents, or a directory with
named entries. -/
inductive FsNode
  | file (content : String)
  | dir (entries : List (String × FsNode))

/-- Look up a name among directory entries (first match). -/
def lookupName : List (String × FsNode) → String → Option FsNode
  | [], _ => none
  | (k, v) :: rest, name => if k = name then some v else lookupName rest name

/-- Replace the entry for `name` (or append it if absent). -/
def setName : List (String × FsNode) → String → FsNode → List (String × FsNode)
  | [], name, v => [(name, v)]
  | (k, w) :: rest, name, v =>
    if k = name then (k, v) :: rest else (k, w) :: setName rest name v

/-- Resolve a path inside a tree. -/
def FsNode.lookup : FsNode → FsPath → Option FsNode
  | n, [] => some n
  | .file _, _ :: _ => none
  | .dir es, name :: rest =>
    match lookupName es name with
    | none => none
    | some child => child.lookup rest

/-- Well-formedness: sibling names are distinct, recursively (true of every
tree that represents an actual filesystem). -/
def FsNode.wf : FsNode → Bool
  | .file _ => true
  | .dir es => wfList es
where
  /-- Well-formedness of an entry list. -/
  wfList : List (String × FsNode) → Bool
  | [] => true
  | (k, v) :: rest => (lookupName rest k).isNone && v.wf && wfList rest

/-- Every node along the path (including the final one) exists and is a
directory. -/
def dirsAlong : FsNode → FsPath → Bool
  | .file _, _ => false
  | .dir _, [] => true
  | .dir es, name :: rest =>
    match lookupName es name with
    | none => false
    | some child => dirsAlong child rest

/-- Rust's `std::fs::create_dir_all`: create every missing directory along
the path; fails if some component already exists as a file. Returns the
updated tree. -/
def createDirAll : FsNode → FsPath → Option FsNode
  | .file _, _ => none
  | .dir es, [] => some (.dir es)
  | .dir es, name :: rest =>
    match createDirAll ((lookupName es name).getD (.dir [])) rest with
    | none => none
    | some child => some (.dir (setName es name child))

/-- Rust's `std::fs::rename` of a file onto `path` (the relocation step of
the transfer): every component leading to the parent must be an existing
directory, and the target must not be an existing directory. -/
def putFile : FsNode → FsPath → String → Option FsNode
  | .file _, _, _ => none
  | .dir _, [], _ => none
  | .dir es, [name], c =>
    match lookupName es name with
    | some (.dir _) => none
    | _ => some (.dir (setName es name (.file c)))
  | .dir es, name :: rest1 :: rest2, c =>
    match lookupName es name with
    | none => none
    | some child =>
      match putFile child (rest1 :: rest2) c with
      | none => none
      | some child2 => some (.dir (setName es name child2))

/-- Place a subtree at a path whose parent chain already exists (used only to
model the native copy primitive writing into the staging directory). -/
def setAt : FsNode → FsPath → FsNode → Option FsNode
  | _, [], v => some v
  | .file _, _ :: _, _ => none
  | .dir es, [name], v => some (.dir (setName es name v))
  | .dir es, name :: rest1 :: rest2, v =>
    match lookupName es name with
    | none => none
    | some child =>
      match setAt child (rest1 :: rest2) v with
      | none => none
      | some child2 => some (.dir (setName es name child2))

/-- Rust's `Path::parent`: `None` at the filesystem root. -/
def parentPath : FsPath → Option FsPath
  | [] => none
  | ps@(_ :: _) => some ps.dropLast

/-- Rust's `Path::strip_prefix base`: the remainder of the path after the
given base, if the base leads it. -/
def relativeTo : FsPath → FsPath → Option FsPath
  | [], q => some q
  | _ :: _, [] => none
  | a :: restBase, b :: restQ =>
    if a = b then relativeTo restBase restQ else none

/-- `WalkDir::new(base)` over a tree rooted at absolute path `base`:
depth-first, each directory before its contents. -/
def walkAbs : FsPath → FsNode → List (FsPath × FsNode)
  | base, .file c => [(base, .file c)]
  | base, .dir es => (base, .dir es) :: walkAbsChildren base es
where
  /-- Walk of a directory's entry list. -/
  walkAbsChildren : FsPath → List (String × FsNode) → List (FsPath × FsNode)
  | _, [] => []
  | base, (name, child) :: rest =>
    walkAbs (base ++ [name]) child ++ walkAbsChildren base rest

/-- Model of the native `docker container cp <container>:src dst` primitive,
per the comment in the source (lines 176–186): if `dst` does not exist it is
created as a copy of the source tree; if `dst` exists as a directory the
source lands one level deeper at `dst/<basename of src>` — the non-idempotent
behavior the algorithm works around; a directory cannot replace an existing
file. -/
def nativeCp (srcName : String) (tree : FsNode) (fs : FsNode) (dst : FsPath) :
    Option FsNode :=
  match fs.lookup dst with
  | none => setAt fs dst tree
  | some (.dir _) => setAt fs (dst ++ [srcName]) tree
  | some (.file _) =>
    match tree with
    | .file c => setAt fs dst (.file c)
    | .dir _ => none

/-- The last path component (`Path::file_name`, with a default for the
root). -/
def basename (p : FsPath) : String := p.getLast?.getD ""

/-- Errors of the transfer: a descriptive message, or a panic of one of the
two `unwrap` calls inside `copy_from_container`. -/
inductive Err
  | msg (text : String)
  | panic

/-- The error messages of the transfer loop. The Rust code interpolates the
offending paths and OS error details into these messages; the model keeps
just the static text, which no claim inspects. -/
def cpErrorMsg : String := "Unable to copy files from the container."

/-- Error message of the `metadata` call. -/
def metadataErrorMsg : String := "Unable to retrieve filesystem metadata."

/-- Error message of `create_dir_all`. -/
def mkdirErrorMsg : String := "Unable to create directory."

/-- Error message of `rename`. -/
def renameErrorMsg : String := "Unable to move file to destination."

/-- The fixed name of the staging target inside the fresh temporary
directory (`temp_dir.path().join("data")`). -/
def tempDataName : String := "data"

/-- The relocation loop over the staged directory's walk entries: directories
are recreated at the destination with `create_dir_all`, files are moved there
with `rename`; the relative position of each entry below the staging path is
obtained with `strip_prefix`, whose failure would be a panic of the `unwrap`
in the source. -/
def relocateEntries (destination intermediate : FsPath) (fs : FsNode) :
    List (FsPath × FsNode) → Except Err FsNode
  | [] => .ok fs
  | (entryPath, node) :: rest =>
    match relativeTo intermediate entryPath with
    | none => .error .panic
    | some rel =>
      match node with
      | .dir _ =>
        match createDirAll fs (destination ++ rel) with
        | none => .error (.msg mkdirErrorMsg)
        | some fs1 => relocateEntries destination intermediate fs1 rest
      | .file c =>
        match putFile fs (destination ++ rel) c with
        | none => .error (.msg renameErrorMsg)
        | some fs1 => relocateEntries destination intermediate fs1 rest

/-- One iteration of the loop of `copy_from_container`: stage the requested
path out of the container through a fresh temporary directory (whose target
path `data` is guaranteed not to exist), inspect the staged result's
metadata, and relocate it onto the real destination. A `.error .panic` result
models a panic of one of the two `unwrap` calls. -/
def processPath (cfs : FsNode) (srcDir destDir : FsPath) (fs : FsNode)
    (path : FsPath) : Except Err FsNode :=
  let source := srcDir ++ path
  let intermediate : FsPath := [tempDataName]
  let destination := destDir ++ path
  match cfs.lookup source with
  | none => .error (.msg cpErrorMsg)
  | some tree =>
    match nativeCp (basename source) tree (.dir []) intermediate with
    | none => .error (.msg cpErrorMsg)
    | some tempFs =>
      match tempFs.lookup intermediate with
      | none => .error (.msg metadataErrorMsg)
      | some staged =>
        match staged with
        | .file c =>
          match parentPath destination with
          | none => .error .panic
          | some destinationDir =>
            match createDirAll fs destinationDir with
            | none => .error (.msg mkdirErrorMsg)
            | some fs1 =>
              match putFile fs1 destination c with
              | none => .error (.msg renameErrorMsg)
              | some fs2 => .ok fs2
        | .dir _ =>
          relocateEntries destination intermediate fs
            (walkAbs intermediate staged)

/-- `copy_from_container`: process each requested path in order against the
host filesystem `fs`; the engine-level behavior of the inner `run_quiet` call
is abstracted into the success or failure of the staging copy. -/
def copy_from_container (cfs : FsNode) (paths : List FsPath)
    (srcDir destDir : FsPath) (fs : FsNode) : Except Err FsNode :=
  match paths with
  | [] => .ok fs
  | p :: rest =>
    match processPath cfs srcDir destDir fs p with
    | .error e => .error e
    | .ok fs1 => copy_from_container cfs rest srcDir destDir fs1

/-! ### Basic lemmas about directory entries, lookups and paths -/

theorem lookupName_setName_self (es : List (String × FsNode)) (name : String)
    (v : FsNode) : lookupName (setName es name v) name = some v := by
  induction es with
  | nil => simp [setName, lookupName]
  | cons hd tl ih =>
    obtain ⟨k, w⟩ := hd
    by_cases h : k = name
    · simp [setName, lookupName, h]
    · simp [setName, lookupName, h, ih]

theorem lookupName_setName_ne (es : List (String × FsNode)) (name k : String)
    (v : FsNode) (h : name ≠ k) :
    lookupName (setName es name v) k = lookupName es k := by
  induction es with
  | nil => simp [setName, lookupName, h]
  | cons hd tl ih =>
    obtain ⟨k0, w⟩ := hd
    by_cases h0 : k0 = name
    · subst h0
      simp [setName, lookupName, h]
    · simp [setName, lookupName, h0, ih]

theorem setName_eq_of_lookupName (es : List (String × FsNode)) (name : String)
    (v : FsNode) (h : lookupName es name = some v) : setName es name v = es := by
  induction es with
  | nil => simp [lookupName] at h
  | cons hd tl ih =>
    obtain ⟨k0, w⟩ := hd
    by_cases h0 : k0 = name
    · subst h0
      simp [lookupName] at h
      simp [setName, h]
    · simp [lookupName, h0] at h
      simp [setName, h0, ih h]

theorem lookupName_isSome_of_mem (es : List (String × FsNode)) (k : String)
    (v : FsNode) (h : (k, v) ∈ es) : (lookupName es k).isSome := by
  induction es with
  | nil => simp at h
  | cons hd tl ih =>
    obtain ⟨k0, w⟩ := hd
    by_cases h0 : k0 = k
    · simp [lookupName, h0]
    · rcases List.mem_cons.mp h with h1 | h1
      · simp at h1
        exact absurd h1.1.symm h0
      · simp [lookupName, h0]
        exact ih h1

theorem mem_of_lookupName (es : List (String × FsNode)) (k : String)
    (v : FsNode) (h : lookupName es k = some v) : (k, v) ∈ es := by
  induction es with
  | nil => simp [lookupName] at h
  | cons hd tl ih =>
    obtain ⟨k0, w⟩ := hd
    by_cases h0 : k0 = k
    · subst h0
      simp [lookupName] at h
      simp [h]
    · simp [lookupName, h0] at h
      exact List.mem_cons_of_mem _ (ih h)

theorem lookupName_eq_of_mem_wf (es : List (String × FsNode)) (k : String)
    (v : FsNode) (hwf : FsNode.wf.wfList es = true) (h : (k, v) ∈ es) :
    lookupName es k = some v := by
  induction es with
  | nil => simp at h
  | cons hd tl ih =>
    obtain ⟨k0, w⟩ := hd
    simp [FsNode.wf.wfList] at hwf
    rcases List.mem_cons.mp h with h1 | h1
    · simp at h1
      obtain ⟨hk, hv⟩ := h1
      subst hk; subst hv
      simp [lookupName]
    · by_cases h0 : k0 = k
      · subst h0
        have := lookupName_isSome_of_mem tl k0 v h1
        rw [hwf.1.1] at this
        simp at this
      · simp [lookupName, h0]
        exact ih hwf.2 h1

theorem wf_of_mem_wfList (es : List (String × FsNode)) (k : String)
    (v : FsNode) (hwf : FsNode.wf.wfList es = true) (h : (k, v) ∈ es) :
    v.wf = true := by
  induction es with
  | nil => simp at h
  | cons hd tl ih =>
    obtain ⟨k0, w⟩ := hd
    simp [FsNode.wf.wfList] at hwf
    rcases List.mem_cons.mp h with h1 | h1
    · simp at h1
      obtain ⟨hk, hv⟩ := h1
      subst hv
      exact hwf.1.2
    · exact ih hwf.2 h1

theorem lookup_append (a b : FsPath) : ∀ n : FsNode,
    FsNode.lookup n (a ++ b)
      = (FsNode.lookup n a).bind (fun m => FsNode.lookup m b) := by
  induction a with
  | nil => intro n; simp [FsNode.lookup]
  | cons x xs ih =>
    intro n
    cases n with
    | file c => simp [FsNode.lookup]
    | dir es =>
      simp only [List.cons_append, FsNode.lookup]
      cases hl : lookupName es x with
      | none => simp
      | some child => exact ih child

theorem wf_lookup (q : FsPath) : ∀ n m : FsNode, n.wf = true →
    FsNode.lookup n q = some m → m.wf = true := by
  induction q with
  | nil =>
    intro n m hwf h
    simp [FsNode.lookup] at h
    exact h ▸ hwf
  | cons x xs ih =>
    intro n m hwf h
    cases n with
    | file c => simp [FsNode.lookup] at h
    | dir es =>
      simp only [FsNode.lookup] at h
      cases hl : lookupName es x with
      | none => rw [hl] at h; simp at h
      | some child =>
        rw [hl] at h
        exact ih child m
          (wf_of_mem_wfList es x child hwf (mem_of_lookupName es x child hl)) h

theorem relativeTo_append (base q : FsPath) :
    relativeTo base (base ++ q) = some q := by
  induction base with
  | nil => simp [relativeTo]
  | cons x xs ih => simp [relativeTo, ih]

theorem parentPath_of_ne (p : FsPath) (h : p ≠ []) :
    parentPath p = some p.dropLast := by
  cases p with
  | nil => exact absurd rfl h
  | cons x xs => rfl

/-- The final node of an all-directories chain is a directory. -/
theorem lookup_dir_of_dirsAlong (q : FsPath) : ∀ fs : FsNode,
    dirsAlong fs q = true → ∃ es, FsNode.lookup fs q = some (.dir es) := by
  induction q with
  | nil =>
    intro fs h
    cases fs with
    | file c => simp [dirsAlong] at h
    | dir es => exact ⟨es, rfl⟩
  | cons x xs ih =>
    intro fs h
    cases fs with
    | file c => simp [dirsAlong] at h
    | dir es =>
      simp only [dirsAlong] at h
      cases hl : lookupName es x with
      | none => rw [hl] at h; simp at h
      | some child =>
        rw [hl] at h
        simpa [FsNode.lookup, hl] using ih child h

/-! ### Lemmas about `createDirAll` -/

/-- `create_dir_all` is a no-op when the whole chain already exists as
directories. -/
theorem createDirAll_of_dirsAlong (d : FsPath) : ∀ fs : FsNode,
    dirsAlong fs d = true → createDirAll fs d = some fs := by
  induction d with
  | nil =>
    intro fs h
    cases fs with
    | file c => simp [dirsAlong] at h
    | dir es => rfl
  | cons x xs ih =>
    intro fs h
    cases fs with
    | file c => simp [dirsAlong] at h
    | dir es =>
      simp only [dirsAlong] at h
      cases hl : lookupName es x with
      | none => rw [hl] at h; simp at h
      | some child =>
        rw [hl] at h
        simp only [createDirAll, hl, Option.getD_some, ih child h]
        rw [setName_eq_of_lookupName es x child hl]

/-- `create_dir_all` leaves every existing file in place. -/
theorem createDirAll_preserves_file (d : FsPath) : ∀ fs fs2 : FsNode,
    createDirAll fs d = some fs2 → ∀ q c,
      FsNode.lookup fs q = some (.file c) →
      FsNode.lookup fs2 q = some (.file c) := by
  induction d with
  | nil =>
    intro fs fs2 h q c hq
    cases fs with
    | file c0 => simp [createDirAll] at h
    | dir es =>
      simp only [createDirAll, Option.some.injEq] at h
      exact h ▸ hq
  | cons x xs ih =>
    intro fs fs2 h q c hq
    cases fs with
    | file c0 => simp [createDirAll] at h
    | dir es =>
      simp only [createDirAll] at h
      cases hc : createDirAll ((lookupName es x).getD (.dir [])) xs with
      | none => rw [hc] at h; simp at h
      | some child2 =>
        rw [hc] at h
        simp only [Option.some.injEq] at h
        subst h
        cases q with
        | nil => simp [FsNode.lookup] at hq
        | cons k qs =>
          simp only [FsNode.lookup] at hq ⊢
          by_cases hk : x = k
          · subst hk
            cases hl : lookupName es x with
            | none => rw [hl] at hq; simp at hq
            | some child0 =>
              rw [hl] at hq
              rw [hl, Option.getD_some] at hc
              rw [lookupName_setName_self]
              exact ih child0 child2 hc qs c hq
          · rw [lookupName_setName_ne es x k child2 hk]
            exact hq

/-- `create_dir_all` preserves every all-directories chain. -/
theorem createDirAll_preserves_dirsAlong (d : FsPath) : ∀ fs fs2 : FsNode,
    createDirAll fs d = some fs2 → ∀ q,
      dirsAlong fs q = true → dirsAlong fs2 q = true := by
  induction d with
  | nil =>
    intro fs fs2 h q hq
    cases fs with
    | file c0 => simp [createDirAll] at h
    | dir es =>
      simp only [createDirAll, Option.some.injEq] at h
      exact h ▸ hq
  | cons x xs ih =>
    intro fs fs2 h q hq
    cases fs with
    | file c0 => simp [createDirAll] at h
    | dir es =>
      simp only [createDirAll] at h
      cases hc : createDirAll ((lookupName es x).getD (.dir [])) xs with
      | none => rw [hc] at h; simp at h
      | some child2 =>
        rw [hc] at h
        simp only [Option.some.injEq] at h
        subst h
        cases q with
        | nil => simp [dirsAlong]
        | cons k qs =>
          simp only [dirsAlong] at hq ⊢
          by_cases hk : x = k
          · subst hk
            cases hl : lookupName es x with
            | none => rw [hl] at hq; simp at hq
            | some child0 =>
              rw [hl] at hq
              rw [hl, Option.getD_some] at hc
              rw [lookupName_setName_self]
              exact ih child0 child2 hc qs hq
          · rw [lookupName_setName_ne es x k child2 hk]
            exact hq

/-- After `create_dir_all`, the whole chain exists as directories. -/
theorem createDirAll_dirsAlong (d : FsPath) : ∀ fs fs2 : FsNode,
    createDirAll fs d = some fs2 → dirsAlong fs2 d = true := by
  induction d with
  | nil =>
    intro fs fs2 h
    cases fs with
    | file c0 => simp [createDirAll] at h
    | dir es =>
      simp only [createDirAll, Option.some.injEq] at h
      subst h
      rfl
  | cons x xs ih =>
    intro fs fs2 h
    cases fs with
    | file c0 => simp [createDirAll] at h
    | dir es =>
      simp only [createDirAll] at h
      cases hc : createDirAll ((lookupName es x).getD (.dir [])) xs with
      | none => rw [hc] at h; simp at h
      | some child2 =>
        rw [hc] at h
        simp only [Option.some.injEq] at h
        subst h
        simp only [dirsAlong, lookupName_setName_self]
        exact ih _ child2 hc

/-! ### Lemmas about `putFile` (the `rename` relocation step) -/

/-- After a successful relocation, the file is at the target path. -/
theorem putFile_lookup (d : FsPath) : ∀ (fs fs2 : FsNode) (c : String),
    putFile fs d c = some fs2 → FsNode.lookup fs2 d = some (.file c) := by
  induction d with
  | nil => intro fs fs2 c h; cases fs <;> simp [putFile] at h
  | cons x xs ih =>
    intro fs fs2 c h
    cases fs with
    | file c0 => simp [putFile] at h
    | dir es =>
      cases xs with
      | nil =>
        simp only [putFile] at h
        cases hl : lookupName es x with
        | none =>
          simp only [hl, Option.some.injEq] at h
          subst h
          simp [FsNode.lookup, lookupName_setName_self]
        | some child =>
          cases child with
          | file c1 =>
            simp only [hl, Option.some.injEq] at h
            subst h
            simp [FsNode.lookup, lookupName_setName_self]
          | dir es1 => simp [hl] at h
      | cons r1 r2 =>
        simp only [putFile] at h
        cases hl : lookupName es x with
        | none => simp [hl] at h
        | some child =>
          simp only [hl] at h
          cases hp : putFile child (r1 :: r2) c with
          | none => simp [hp] at h
          | some child2 =>
            simp only [hp, Option.some.injEq] at h
            subst h
            simp only [FsNode.lookup, lookupName_setName_self]
            exact ih child child2 c hp

/-- Relocation does not disturb files at any other path. -/
theorem putFile_preserves_file (d : FsPath) : ∀ (fs fs2 : FsNode) (c : String),
    putFile fs d c = some fs2 → ∀ q c2, q ≠ d →
      FsNode.lookup fs q = some (.file c2) →
      FsNode.lookup fs2 q = some (.file c2) := by
  induction d with
  | nil => intro fs fs2 c h; cases fs <;> simp [putFile] at h
  | cons x xs ih =>
    intro fs fs2 c h q c2 hne hq
    cases fs with
    | file c0 => simp [putFile] at h
    | dir es =>
      cases xs with
      | nil =>
        simp only [putFile] at h
        have main : ∀ hl : Option FsNode, lookupName es x = hl →
            (∀ es1, hl ≠ some (.dir es1)) →
            FsNode.lookup (.dir (setName es x (.file c))) q
              = some (.file c2) := by
          intro hl hle hnd
          cases q with
          | nil => simp [FsNode.lookup] at hq
          | cons k qs =>
            simp only [FsNode.lookup] at hq ⊢
            by_cases hk : x = k
            · subst hk
              have hqs : qs ≠ [] := by
                intro hqs
                exact hne (by rw [hqs])
              rw [hle] at hq
              cases hl with
              | none => simp at hq
              | some child =>
                cases child with
                | file c1 =>
                  simp only at hq
                  cases qs with
                  | nil => exact absurd rfl hqs
                  | cons a b => simp [FsNode.lookup] at hq
                | dir es1 => exact absurd rfl (hnd es1)
            · rw [lookupName_setName_ne es x k _ hk]
              exact hq
        cases hl : lookupName es x with
        | none =>
          simp only [hl, Option.some.injEq] at h
          subst h
          exact main none hl (by intro es1 h1; exact Option.noConfusion h1)
        | some child =>
          cases child with
          | file c1 =>
            simp only [hl, Option.some.injEq] at h
            subst h
            exact main (some (.file c1)) hl (by intro es1 h1; simp at h1)
          | dir es1 => simp [hl] at h
      | cons r1 r2 =>
        simp only [putFile] at h
        cases hl : lookupName es x with
        | none => simp [hl] at h
        | some child =>
          simp only [hl] at h
          cases hp : putFile child (r1 :: r2) c with
          | none => simp [hp] at h
          | some child2 =>
            simp only [hp, Option.some.injEq] at h
            subst h
            cases q with
            | nil => simp [FsNode.lookup] at hq
            | cons k qs =>
              simp only [FsNode.lookup] at hq ⊢
              by_cases hk : x = k
              · subst hk
                rw [lookupName_setName_self]
                simp only [hl] at hq
                have hqs : qs ≠ r1 :: r2 := by
                  intro hqs
                  exact hne (by rw [hqs])
                exact ih child child2 c hp qs c2 hqs hq
              · rw [lookupName_setName_ne es x k _ hk]
                exact hq

/-- Relocation preserves every all-directories chain (a successful `rename`
never overwrites a directory). -/
theorem putFile_preserves_dirsAlong (d : FsPath) : ∀ (fs fs2 : FsNode) (c : String),
    putFile fs d c = some fs2 → ∀ q,
      dirsAlong fs q = true → dirsAlong fs2 q = true := by
  induction d with
  | nil => intro fs fs2 c h; cases fs <;> simp [putFile] at h
  | cons x xs ih =>
    intro fs fs2 c h q hq
    cases fs with
    | file c0 => simp [putFile] at h
    | dir es =>
      cases xs with
      | nil =>
        simp only [putFile] at h
        have main : ∀ hl : Option FsNode, lookupName es x = hl →
            (∀ es1, hl ≠ some (.dir es1)) →
            dirsAlong (.dir (setName es x (.file c))) q = true := by
          intro hl hle hnd
          cases q with
          | nil => simp [dirsAlong]
          | cons k qs =>
            simp only [dirsAlong] at hq ⊢
            by_cases hk : x = k
            · subst hk
              rw [hle] at hq
              cases hl with
              | none => simp at hq
              | some child =>
                cases child with
                | file c1 => simp [dirsAlong] at hq
                | dir es1 => exact absurd rfl (hnd es1)
            · rw [lookupName_setName_ne es x k _ hk]
              exact hq
        cases hl : lookupName es x with
        | none =>
          simp only [hl, Option.some.injEq] at h
          subst h
          exact main none hl (by intro es1 h1; exact Option.noConfusion h1)
        | some child =>
          cases child with
          | file c1 =>
            simp only [hl, Option.some.injEq] at h
            subst h
            exact main (some (.file c1)) hl (by intro es1 h1; simp at h1)
          | dir es1 => simp [hl] at h
      | cons r1 r2 =>
        simp only [putFile] at h
        cases hl : lookupName es x with
        | none => simp [hl] at h
        | some child =>
          simp only [hl] at h
          cases hp : putFile child (r1 :: r2) c with
          | none => simp [hp] at h
          | some child2 =>
            simp only [hp, Option.some.injEq] at h
            subst h
            cases q with
            | nil => simp [dirsAlong]
            | cons k qs =>
              simp only [dirsAlong] at hq ⊢
              by_cases hk : x = k
              · subst hk
                rw [lookupName_setName_self]
                simp only [hl] at hq
                exact ih child child2 c hp qs hq
              · rw [lookupName_setName_ne es x k _ hk]
                exact hq

/-- A successful relocation found the whole parent chain as directories. -/
theorem putFile_dirsAlong_dropLast (d : FsPath) : ∀ (fs fs2 : FsNode) (c : String),
    putFile fs d c = some fs2 → dirsAlong fs d.dropLast = true := by
  induction d with
  | nil => intro fs fs2 c h; cases fs <;> simp [putFile] at h
  | cons x xs ih =>
    intro fs fs2 c h
    cases fs with
    | file c0 => simp [putFile] at h
    | dir es =>
      cases xs with
      | nil => simp [dirsAlong]
      | cons r1 r2 =>
        simp only [putFile] at h
        cases hl : lookupName es x with
        | none => simp [hl] at h
        | some child =>
          simp only [hl] at h
          cases hp : putFile child (r1 :: r2) c with
          | none => simp [hp] at h
          | some child2 =>
            have : (x :: r1 :: r2).dropLast = x :: (r1 :: r2).dropLast := rfl
            rw [this]
            simp only [dirsAlong, hl]
            exact ih child child2 c hp

/-- Relocation is a no-op when the parent chain exists and the file is
already in place with the same contents. -/
theorem putFile_of_settled (d : FsPath) : ∀ (fs : FsNode) (c : String),
    dirsAlong fs d.dropLast = true → FsNode.lookup fs d = some (.file c) →
    putFile fs d c = some fs := by
  induction d with
  | nil =>
    intro fs c hd hq
    cases fs with
    | file c0 => simp [dirsAlong] at hd
    | dir es => simp [FsNode.lookup] at hq
  | cons x xs ih =>
    intro fs c hd hq
    cases fs with
    | file c0 => simp [FsNode.lookup] at hq
    | dir es =>
      cases xs with
      | nil =>
        simp only [FsNode.lookup] at hq
        cases hl : lookupName es x with
        | none => simp [hl] at hq
        | some child =>
          simp only [hl] at hq
          simp only [FsNode.lookup, Option.some.injEq] at hq
          subst hq
          simp only [putFile, hl]
          rw [setName_eq_of_lookupName es x _ hl]
      | cons r1 r2 =>
        have hd2 : dirsAlong (FsNode.dir es) (x :: (r1 :: r2).dropLast) = true := hd
        simp only [dirsAlong] at hd2
        simp only [FsNode.lookup] at hq
        cases hl : lookupName es x with
        | none => simp [hl] at hq
        | some child =>
          simp only [hl] at hq hd2
          simp only [putFile, hl]
          rw [ih child c hd2 hq]
          simp [setName_eq_of_lookupName es x child hl]

/-! ### Lemmas about the walk of the staged tree -/

mutual

/-- Walking from a longer base shifts every entry path by the extra lead. -/
theorem walkAbs_shift (base ext : FsPath) (n : FsNode) :
    walkAbs (base ++ ext) n
      = (walkAbs ext n).map (fun e => (base ++ e.1, e.2)) := by
  cases n with
  | file c => simp [walkAbs]
  | dir es =>
    simp only [walkAbs, List.map_cons]
    rw [walkAbsChildren_shift base ext es]

/-- Entry-list version of `walkAbs_shift`. -/
theorem walkAbsChildren_shift (base ext : FsPath)
    (es : List (String × FsNode)) :
    walkAbs.walkAbsChildren (base ++ ext) es
      = (walkAbs.walkAbsChildren ext es).map (fun e => (base ++ e.1, e.2)) := by
  cases es with
  | nil => simp [walkAbs.walkAbsChildren]
  | cons hd tl =>
    obtain ⟨name, child⟩ := hd
    simp only [walkAbs.walkAbsChildren, List.map_append]
    rw [List.append_assoc base ext [name]]
    rw [walkAbs_shift base (ext ++ [name]) child]
    rw [walkAbsChildren_shift base ext tl]

end

/-- Every entry of a walk of a directory's children comes from one child. -/
theorem mem_walkAbsChildren (base : FsPath) (es : List (String × FsNode))
    (q : FsPath) (m : FsNode)
    (h : (q, m) ∈ walkAbs.walkAbsChildren base es) :
    ∃ k v, (k, v) ∈ es ∧ (q, m) ∈ walkAbs (base ++ [k]) v := by
  induction es with
  | nil => simp [walkAbs.walkAbsChildren] at h
  | cons hd tl ih =>
    obtain ⟨name, child⟩ := hd
    simp only [walkAbs.walkAbsChildren] at h
    rcases List.mem_append.mp h with h1 | h1
    · exact ⟨name, child, List.mem_cons_self _ _, h1⟩
    · obtain ⟨k, v, hm, hw⟩ := ih h1
      exact ⟨k, v, List.mem_cons_of_mem _ hm, hw⟩

/-- Conversely, each child's walk is contained in the children's walk. -/
theorem walkAbsChildren_of_mem (base : FsPath) (es : List (String × FsNode))
    (k : String) (v : FsNode) (q : FsPath) (m : FsNode)
    (hm : (k, v) ∈ es) (hw : (q, m) ∈ walkAbs (base ++ [k]) v) :
    (q, m) ∈ walkAbs.walkAbsChildren base es := by
  induction es with
  | nil => simp at hm
  | cons hd tl ih =>
    obtain ⟨name, child⟩ := hd
    simp only [walkAbs.walkAbsChildren]
    rcases List.mem_cons.mp hm with h1 | h1
    · simp at h1
      obtain ⟨hk, hv⟩ := h1
      subst hk; subst hv
      exact List.mem_append_left _ hw
    · exact List.mem_append_right _ (ih h1)

/-- Auxiliary form of `walkAbs_mem_lookup`, by induction on a size bound. -/
theorem walkAbs_mem_lookup_aux (N : Nat) : ∀ n : FsNode, sizeOf n ≤ N →
    n.wf = true → ∀ q m, (q, m) ∈ walkAbs [] n →
    FsNode.lookup n q = some m := by
  induction N with
  | zero =>
    intro n hsz
    have : 0 < sizeOf n := by cases n <;> simp_arith
    omega
  | succ N ih =>
    intro n hsz hwf q m hm
    cases n with
    | file c =>
      simp [walkAbs] at hm
      obtain ⟨hq, hm2⟩ := hm
      subst hq; subst hm2
      rfl
    | dir es =>
      simp only [walkAbs] at hm
      rcases List.mem_cons.mp hm with h1 | h1
      · simp at h1
        obtain ⟨hq, hm2⟩ := h1
        subst hq; subst hm2
        rfl
      · obtain ⟨k, v, hmem, hw⟩ := mem_walkAbsChildren [] es q m h1
        rw [List.nil_append] at hw
        have hsh := walkAbs_shift [k] [] v
        rw [List.append_nil] at hsh
        rw [hsh] at hw
        obtain ⟨⟨q0, m0⟩, hw0, heq⟩ := List.mem_map.mp hw
        simp only [Prod.mk.injEq] at heq
        obtain ⟨hqe, hme⟩ := heq
        subst hme
        have hwf2 : FsNode.wf.wfList es = true := by
          simpa [FsNode.wf] using hwf
        have hv : v.wf = true := wf_of_mem_wfList es k v hwf2 hmem
        have hszv : sizeOf v ≤ N := by
          have h1 : sizeOf (k, v) < sizeOf es := List.sizeOf_lt_of_mem hmem
          have h2 : sizeOf (FsNode.dir es) = 1 + sizeOf es := by simp
          simp only [Prod.mk.sizeOf_spec] at h1
          omega
        have hrec := ih v hszv hv q0 m0 hw0
        have hlook := lookupName_eq_of_mem_wf es k v hwf2 hmem
        rw [← hqe]
        simp only [List.cons_append, List.nil_append, FsNode.lookup, hlook]
        exact hrec

/-- In a well-formed tree, every walk entry is found by `lookup` at its
path. -/
theorem walkAbs_mem_lookup (n : FsNode) (hwf : n.wf = true) (q : FsPath)
    (m : FsNode) (hm : (q, m) ∈ walkAbs [] n) :
    FsNode.lookup n q = some m :=
  walkAbs_mem_lookup_aux (sizeOf n) n le_rfl hwf q m hm

/-- Conversely, `lookup` results appear in the walk (no well-formedness
needed). -/
theorem lookup_mem_walkAbs (q : FsPath) : ∀ n m : FsNode,
    FsNode.lookup n q = some m → (q, m) ∈ walkAbs [] n := by
  induction q with
  | nil =>
    intro n m h
    simp only [FsNode.lookup, Option.some.injEq] at h
    subst h
    cases n with
    | file c => simp [walkAbs]
    | dir es => simp [walkAbs]
  | cons k qs ih =>
    intro n m h
    cases n with
    | file c => simp [FsNode.lookup] at h
    | dir es =>
      simp only [FsNode.lookup] at h
      cases hl : lookupName es k with
      | none => rw [hl] at h; simp at h
      | some child =>
        rw [hl] at h
        have hmem := ih child m h
        have hsh := walkAbs_shift [k] [] child
        rw [List.append_nil] at hsh
        have hin : (k :: qs, m) ∈ walkAbs [k] child := by
          rw [hsh]
          exact List.mem_map.mpr ⟨(qs, m), hmem, rfl⟩
        simp only [walkAbs]
        refine List.mem_cons_of_mem _
          (walkAbsChildren_of_mem [] es k child (k :: qs) m
            (mem_of_lookupName es k child hl) ?_)
        simpa using hin

/-! ### The relocation loop as a sequence of destination writes

Each iteration of the relocation performs either a `create_dir_all` or a
`rename` at a destination path; abstracting the loop into this list of
operations is what the idempotence and mirroring proofs induct over. -/

/-- One destination write of the relocation loop. -/
inductive Op
  | mkdirs (d : FsPath)
  | mvfile (d : FsPath) (content : String)

/-- Executing one write, with the error message of the corresponding
source-level branch. -/
def applyOp (fs : FsNode) : Op → Except Err FsNode
  | .mkdirs d =>
    match createDirAll fs d with
    | none => .error (.msg mkdirErrorMsg)
    | some fs1 => .ok fs1
  | .mvfile d c =>
    match putFile fs d c with
    | none => .error (.msg renameErrorMsg)
    | some fs1 => .ok fs1

/-- Executing a sequence of writes, stopping at the first failure. -/
def applyOps (fs : FsNode) : List Op → Except Err FsNode
  | [] => .ok fs
  | op :: rest =>
    match applyOp fs op with
    | .error e => .error e
    | .ok fs1 => applyOps fs1 rest

/-- A write is settled in a filesystem if its effect is already present:
the directory chain exists, or the file is in place with those contents. -/
def Settled (fs : FsNode) : Op → Prop
  | .mkdirs d => dirsAlong fs d = true
  | .mvfile d c =>
    dirsAlong fs d.dropLast = true ∧ FsNode.lookup fs d = some (.file c)

/-- Two writes are compatible when file writes to the same path carry the
same contents. -/
def Compat : Op → Op → Prop
  | .mvfile d c, .mvfile d2 c2 => d = d2 → c = c2
  | _, _ => True

/-- A successful write is settled afterwards. -/
theorem applyOp_settles (fs fs2 : FsNode) (op : Op)
    (h : applyOp fs op = .ok fs2) : Settled fs2 op := by
  cases op with
  | mkdirs d =>
    simp only [applyOp] at h
    cases hc : createDirAll fs d with
    | none => simp [hc] at h
    | some fs3 =>
      simp only [hc, Except.ok.injEq] at h
      subst h
      exact createDirAll_dirsAlong d fs fs3 hc
  | mvfile d c =>
    simp only [applyOp] at h
    cases hp : putFile fs d c with
    | none => simp [hp] at h
    | some fs3 =>
      simp only [hp, Except.ok.injEq] at h
      subst h
      refine ⟨?_, putFile_lookup d fs fs3 c hp⟩
      exact putFile_preserves_dirsAlong d fs fs3 c hp _
        (putFile_dirsAlong_dropLast d fs fs3 c hp)

/-- A settled write stays settled across any later compatible write. -/
theorem applyOp_preserves (fs fs2 : FsNode) (o o2 : Op)
    (hs : Settled fs o) (h : applyOp fs o2 = .ok fs2) (hc : Compat o o2) :
    Settled fs2 o := by
  cases o2 with
  | mkdirs d2 =>
    simp only [applyOp] at h
    cases hcda : createDirAll fs d2 with
    | none => simp [hcda] at h
    | some fs3 =>
      simp only [hcda, Except.ok.injEq] at h
      subst h
      cases o with
      | mkdirs d => exact createDirAll_preserves_dirsAlong d2 fs fs3 hcda d hs
      | mvfile d c =>
        exact ⟨createDirAll_preserves_dirsAlong d2 fs fs3 hcda _ hs.1,
          createDirAll_preserves_file d2 fs fs3 hcda d c hs.2⟩
  | mvfile d2 c2 =>
    simp only [applyOp] at h
    cases hput : putFile fs d2 c2 with
    | none => simp [hput] at h
    | some fs3 =>
      simp only [hput, Except.ok.injEq] at h
      subst h
      cases o with
      | mkdirs d => exact putFile_preserves_dirsAlong d2 fs fs3 c2 hput d hs
      | mvfile d c =>
        refine ⟨putFile_preserves_dirsAlong d2 fs fs3 c2 hput _ hs.1, ?_⟩
        by_cases hd : d = d2
        · subst hd
          simp only [Compat] at hc
          have hcc : c = c2 := hc trivial
          subst hcc
          exact putFile_lookup d fs fs3 c hput
        · exact putFile_preserves_file d2 fs fs3 c2 hput d c hd hs.2

/-- A settled write is a no-op. -/
theorem applyOp_of_settled (fs : FsNode) (op : Op) (hs : Settled fs op) :
    applyOp fs op = .ok fs := by
  cases op with
  | mkdirs d => simp [applyOp, createDirAll_of_dirsAlong d fs hs]
  | mvfile d c => simp [applyOp, putFile_of_settled d fs c hs.1 hs.2]

/-- After a successful pairwise-compatible write sequence, every executed
write (and every previously settled one) is settled in the final state. -/
theorem applyOps_settles (P : Op → Prop)
    (hP : ∀ o o2, P o → P o2 → Compat o o2) :
    ∀ (ops : List Op) (fs fs2 : FsNode) (acc : List Op),
      applyOps fs ops = .ok fs2 →
      (∀ o ∈ ops, P o) → (∀ o ∈ acc, P o) →
      (∀ o ∈ acc, Settled fs o) →
      ∀ o, o ∈ acc ∨ o ∈ ops → Settled fs2 o := by
  intro ops
  induction ops with
  | nil =>
    intro fs fs2 acc h hops hacc hs o ho
    simp only [applyOps, Except.ok.injEq] at h
    subst h
    rcases ho with ho | ho
    · exact hs o ho
    · simp at ho
  | cons op0 rest ih =>
    intro fs fs2 acc h hops hacc hs o ho
    simp only [applyOps] at h
    cases ha : applyOp fs op0 with
    | error e => rw [ha] at h; simp at h
    | ok fs1 =>
      rw [ha] at h
      have hset1 : Settled fs1 op0 := applyOp_settles fs fs1 op0 ha
      have hsacc1 : ∀ o2 ∈ acc, Settled fs1 o2 := fun o2 ho2 =>
        applyOp_preserves fs fs1 o2 op0 (hs o2 ho2) ha
          (hP o2 op0 (hacc o2 ho2) (hops op0 (List.mem_cons_self _ _)))
      have hmain := ih fs1 fs2 (op0 :: acc) h
        (fun o2 ho2 => hops o2 (List.mem_cons_of_mem _ ho2))
        (fun o2 ho2 => by
          rcases List.mem_cons.mp ho2 with h1 | h1
          · rw [h1]; exact hops op0 (List.mem_cons_self _ _)
          · exact hacc o2 h1)
        (fun o2 ho2 => by
          rcases List.mem_cons.mp ho2 with h1 | h1
          · rw [h1]; exact hset1
          · exact hsacc1 o2 h1)
      rcases ho with ho | ho
      · exact hmain o (Or.inl (List.mem_cons_of_mem _ ho))
      · rcases List.mem_cons.mp ho with h1 | h1
        · subst h1; exact hmain o (Or.inl (List.mem_cons_self _ _))
        · exact hmain o (Or.inr h1)

/-- A write sequence that is entirely settled leaves the filesystem
unchanged. -/
theorem applyOps_of_settled : ∀ (ops : List Op) (fs : FsNode),
    (∀ o ∈ ops, Settled fs o) → applyOps fs ops = .ok fs := by
  intro ops
  induction ops with
  | nil => intro fs _; rfl
  | cons op0 rest ih =>
    intro fs hs
    simp only [applyOps, applyOp_of_settled fs op0 (hs op0 (List.mem_cons_self _ _))]
    exact ih fs (fun o ho => hs o (List.mem_cons_of_mem _ ho))

/-- A single write never fails with a panic. -/
theorem applyOp_not_panic (fs : FsNode) (op : Op) :
    applyOp fs op ≠ .error .panic := by
  cases op with
  | mkdirs d => cases hc : createDirAll fs d <;> simp [applyOp, hc]
  | mvfile d c => cases hp : putFile fs d c <;> simp [applyOp, hp]

/-- A write sequence never fails with a panic. -/
theorem applyOps_not_panic : ∀ (ops : List Op) (fs : FsNode),
    applyOps fs ops ≠ .error .panic := by
  intro ops
  induction ops with
  | nil => intro fs; simp [applyOps]
  | cons op0 rest ih =>
    intro fs
    simp only [applyOps]
    cases ha : applyOp fs op0 with
    | error e =>
      have := applyOp_not_panic fs op0
      rw [ha] at this
      simpa using this
    | ok fs1 => exact ih fs1

/-- The destination write of one walk entry. -/
def opOfEntry (destination : FsPath) (e : FsPath × FsNode) : Op :=
  match e.2 with
  | .dir _ => .mkdirs (destination ++ e.1)
  | .file c => .mvfile (destination ++ e.1) c

/-- The write sequence a staged tree gives rise to at a destination. -/
def opsFor (staged : FsNode) (destination : FsPath) : List Op :=
  match staged with
  | .file c => [.mkdirs destination.dropLast, .mvfile destination c]
  | .dir es => (walkAbs [] (FsNode.dir es)).map (opOfEntry destination)

/-- The relocation loop over shifted entries is exactly the execution of the
entries' write sequence. -/
theorem relocate_eq_applyOps (destination base : FsPath) :
    ∀ (L : List (FsPath × FsNode)) (fs : FsNode),
      relocateEntries destination base fs
          (L.map (fun e => (base ++ e.1, e.2)))
        = applyOps fs (L.map (opOfEntry destination)) := by
  intro L
  induction L with
  | nil => intro fs; rfl
  | cons hd tl ih =>
    intro fs
    obtain ⟨rel, node⟩ := hd
    simp only [List.map_cons, relocateEntries, relativeTo_append]
    cases node with
    | dir es1 =>
      simp only [applyOps, applyOp, opOfEntry]
      cases hc : createDirAll fs (destination ++ rel) with
      | none => simp [hc]
      | some fs1 => simp [hc, ih fs1]
    | file c =>
      simp only [applyOps, applyOp, opOfEntry]
      cases hp : putFile fs (destination ++ rel) c with
      | none => simp [hp]
      | some fs1 => simp [hp, ih fs1]

/-- The native copy primitive applied to the fresh staging directory: the
target does not exist, so the tree lands exactly at the target (no
nesting). -/
theorem nativeCp_fresh (name : String) (tree : FsNode) :
    nativeCp name tree (.dir []) [tempDataName]
      = some (.dir [(tempDataName, tree)]) := rfl

/-- Looking the staged tree back up at the staging path. -/
theorem lookup_temp (tree : FsNode) :
    FsNode.lookup (.dir [(tempDataName, tree)]) [tempDataName] = some tree := by
  simp [FsNode.lookup, lookupName]

/-- One loop iteration is exactly the execution of the staged tree's write
sequence, provided the staged source exists and the file case does not
target the filesystem root. -/
theorem processPath_eq_applyOps (cfs : FsNode) (srcDir destDir : FsPath)
    (fs : FsNode) (p : FsPath) (tree : FsNode)
    (hl : FsNode.lookup cfs (srcDir ++ p) = some tree)
    (hne : ∀ c, tree = .file c → destDir ++ p ≠ []) :
    processPath cfs srcDir destDir fs p
      = applyOps fs (opsFor tree (destDir ++ p)) := by
  simp only [processPath, hl, nativeCp_fresh, lookup_temp]
  cases tree with
  | file c =>
    have hnil := hne c rfl
    simp only [parentPath_of_ne _ hnil, opsFor, applyOps, applyOp]
    cases hc : createDirAll fs (destDir ++ p).dropLast with
    | none => simp [hc]
    | some fs1 =>
      simp only [hc]
      cases hp : putFile fs1 (destDir ++ p) c with
      | none => simp [hp]
      | some fs2 => simp [hp, applyOps]
  | dir es =>
    have hsh := walkAbs_shift [tempDataName] [] (FsNode.dir es)
    rw [List.append_nil] at hsh
    rw [hsh]
    rw [relocate_eq_applyOps (destDir ++ p) [tempDataName]
      (walkAbs [] (FsNode.dir es)) fs]
    rfl

/-- A successful loop iteration found its source in the container, and in
the file case its destination is not the root. -/
theorem processPath_ok_extract (cfs : FsNode) (srcDir destDir : FsPath)
    (fs fs2 : FsNode) (p : FsPath)
    (h : processPath cfs srcDir destDir fs p = .ok fs2) :
    ∃ tree, FsNode.lookup cfs (srcDir ++ p) = some tree ∧
      ∀ c, tree = .file c → destDir ++ p ≠ [] := by
  cases hl : FsNode.lookup cfs (srcDir ++ p) with
  | none => simp [processPath, hl] at h
  | some tree =>
    refine ⟨tree, rfl, ?_⟩
    intro c hc hnil
    subst hc
    simp only [processPath, hl, nativeCp_fresh, lookup_temp] at h
    rw [hnil] at h
    simp [parentPath] at h

/-- Provenance of a write: it derives from the container filesystem through
the transfer's path arithmetic. -/
def Deriv (cfs : FsNode) (srcDir destDir : FsPath) : Op → Prop
  | .mkdirs _ => True
  | .mvfile d c => ∃ s, d = destDir ++ s ∧
      FsNode.lookup cfs (srcDir ++ s) = some (.file c)

/-- Any two container-derived writes are compatible: file writes to equal
destination paths come from the same container file. -/
theorem deriv_compat (cfs : FsNode) (srcDir destDir : FsPath) :
    ∀ o o2, Deriv cfs srcDir destDir o → Deriv cfs srcDir destDir o2 →
      Compat o o2 := by
  intro o o2 h1 h2
  cases o with
  | mkdirs d => simp [Compat]
  | mvfile d c =>
    cases o2 with
    | mkdirs d2 => simp [Compat]
    | mvfile d2 c2 =>
      simp only [Compat]
      intro hd
      simp only [Deriv] at h1 h2
      obtain ⟨s, hs, hsl⟩ := h1
      obtain ⟨s2, hs2, hsl2⟩ := h2
      subst hs; subst hs2
      have hss : s = s2 := List.append_cancel_left hd
      subst hss
      rw [hsl] at hsl2
      simp only [Option.some.injEq, FsNode.file.injEq] at hsl2
      exact hsl2

/-- Every write produced by a staged tree is container-derived. -/
theorem deriv_opsFor (cfs : FsNode) (srcDir destDir : FsPath) (p : FsPath)
    (tree : FsNode) (hwf : cfs.wf = true)
    (hl : FsNode.lookup cfs (srcDir ++ p) = some tree) :
    ∀ o ∈ opsFor tree (destDir ++ p), Deriv cfs srcDir destDir o := by
  intro o ho
  cases tree with
  | file c =>
    simp only [opsFor, List.mem_cons, List.mem_singleton] at ho
    rcases ho with ho | ho | ho
    · subst ho; simp [Deriv]
    · subst ho
      simp only [Deriv]
      exact ⟨p, rfl, hl⟩
    · simp at ho
  | dir es =>
    simp only [opsFor] at ho
    obtain ⟨⟨rel, m⟩, hmem, rfl⟩ := List.mem_map.mp ho
    cases m with
    | dir es2 => simp [opOfEntry, Deriv]
    | file c =>
      simp only [opOfEntry]
      have htreewf : FsNode.wf (.dir es) = true :=
        wf_lookup (srcDir ++ p) cfs _ hwf hl
      have hlk := walkAbs_mem_lookup (.dir es) htreewf rel (.file c) hmem
      simp only [Deriv]
      refine ⟨p ++ rel, by rw [List.append_assoc], ?_⟩
      rw [← List.append_assoc]
      rw [lookup_append (srcDir ++ p) rel cfs, hl]
      exact hlk

/-! ### The main transfer theorems -/

/-- After a successful run, every previously settled container-derived write
is still settled, and re-running the whole transfer from the final state
leaves it unchanged. -/
theorem copy_run_settles (cfs : FsNode) (srcDir destDir : FsPath)
    (hwf : cfs.wf = true) :
    ∀ (paths : List FsPath) (fs fs1 : FsNode) (acc : List Op),
      (∀ o ∈ acc, Deriv cfs srcDir destDir o) →
      (∀ o ∈ acc, Settled fs o) →
      copy_from_container cfs paths srcDir destDir fs = .ok fs1 →
      (∀ o ∈ acc, Settled fs1 o) ∧
        copy_from_container cfs paths srcDir destDir fs1 = .ok fs1 := by
  intro paths
  induction paths with
  | nil =>
    intro fs fs1 acc hd hs h
    simp only [copy_from_container, Except.ok.injEq] at h
    subst h
    exact ⟨hs, rfl⟩
  | cons p rest ih =>
    intro fs fs1 acc hd hs h
    simp only [copy_from_container] at h
    cases hp : processPath cfs srcDir destDir fs p with
    | error e => rw [hp] at h; simp at h
    | ok fsA =>
      rw [hp] at h
      obtain ⟨tree, htl, hne⟩ :=
        processPath_ok_extract cfs srcDir destDir fs fsA p hp
      have heq := processPath_eq_applyOps cfs srcDir destDir fs p tree htl hne
      rw [heq] at hp
      have hdOps := deriv_opsFor cfs srcDir destDir p tree hwf htl
      have hsA : ∀ o, o ∈ acc ∨ o ∈ opsFor tree (destDir ++ p) →
          Settled fsA o :=
        applyOps_settles (Deriv cfs srcDir destDir)
          (deriv_compat cfs srcDir destDir)
          (opsFor tree (destDir ++ p)) fs fsA acc hp hdOps hd hs
      have hd2 : ∀ o ∈ acc ++ opsFor tree (destDir ++ p),
          Deriv cfs srcDir destDir o := by
        intro o ho
        rcases List.mem_append.mp ho with h1 | h1
        · exact hd o h1
        · exact hdOps o h1
      have hs2 : ∀ o ∈ acc ++ opsFor tree (destDir ++ p), Settled fsA o :=
        fun o ho => hsA o (List.mem_append.mp ho)
      obtain ⟨hfin, hrep⟩ :=
        ih fsA fs1 (acc ++ opsFor tree (destDir ++ p)) hd2 hs2 h
      constructor
      · intro o ho
        exact hfin o (List.mem_append_left _ ho)
      · simp only [copy_from_container]
        rw [processPath_eq_applyOps cfs srcDir destDir fs1 p tree htl hne]
        rw [applyOps_of_settled _ fs1
          (fun o ho => hfin o (List.mem_append_right _ ho))]
        exact hrep

/-- C4: the transfer is idempotent against the same destination: if a run
from host state `fs` succeeds and produces `fs1`, running it again with
identical inputs starting from `fs1` succeeds and leaves the destination
tree exactly `fs1` — in particular a retry never nests a copied directory
one level deeper, because each run stages through a fresh temporary
location whose target path does not yet exist. (`cfs.wf` states that
sibling names in the container filesystem are distinct, which is true of
any real filesystem.) -/
theorem copy_from_container_idempotent (cfs : FsNode) (paths : List FsPath)
    (srcDir destDir : FsPath) (fs fs1 : FsNode)
    (hwf : FsNode.wf cfs = true)
    (h : copy_from_container cfs paths srcDir destDir fs = .ok fs1) :
    copy_from_container cfs paths srcDir destDir fs1 = .ok fs1 :=
  (copy_run_settles cfs srcDir destDir hwf paths fs fs1 []
    (by simp) (by simp) h).2

/-- Witness for C4: copying the container directory `/foo` (holding file
`a`) onto the host destination `/bar` yields `/bar/a`; a second run returns
the same tree, not `/bar/foo/a`. -/
theorem copy_from_container_idempotent_witness :
    copy_from_container (.dir [("foo", .dir [("a", .file "x")])]) [[]]
        ["foo"] ["bar"] (.dir [("bar", .dir [("a", .file "x")])])
      = .ok (.dir [("bar", .dir [("a", .file "x")])]) :=
  copy_from_container_idempotent (.dir [("foo", .dir [("a", .file "x")])])
    [[]] ["foo"] ["bar"] (.dir [])
    (.dir [("bar", .dir [("a", .file "x")])]) rfl rfl

/-- C5: after the native copy into the staging location, a staged single
file ends up relocated onto the destination path (with its parent chain of
directories in place), and a staged directory is mirrored onto the
destination root: every sub-directory of the staged tree has a matching
destination sub-directory, and every file of the staged tree sits at the
corresponding destination path. -/
theorem processPath_mirrors_staged_tree (cfs : FsNode)
    (srcDir destDir : FsPath) (fs fs2 : FsNode) (p : FsPath) (tree : FsNode)
    (hwf : FsNode.wf cfs = true)
    (hl : FsNode.lookup cfs (srcDir ++ p) = some tree)
    (h : processPath cfs srcDir destDir fs p = .ok fs2) :
    (∀ c, tree = .file c →
      FsNode.lookup fs2 (destDir ++ p) = some (.file c)) ∧
    (∀ es, tree = .dir es → ∀ rel m, FsNode.lookup tree rel = some m →
      (∀ c, m = .file c →
        FsNode.lookup fs2 (destDir ++ p ++ rel) = some (.file c)) ∧
      (∀ es2, m = .dir es2 →
        ∃ es3, FsNode.lookup fs2 (destDir ++ p ++ rel) = some (.dir es3))) := by
  obtain ⟨tree0, htl0, hne0⟩ :=
    processPath_ok_extract cfs srcDir destDir fs fs2 p h
  rw [hl] at htl0
  injection htl0 with htl0
  subst htl0
  have heq := processPath_eq_applyOps cfs srcDir destDir fs p tree hl hne0
  rw [heq] at h
  have hset : ∀ o, o ∈ ([] : List Op) ∨ o ∈ opsFor tree (destDir ++ p) →
      Settled fs2 o :=
    applyOps_settles (Deriv cfs srcDir destDir)
      (deriv_compat cfs srcDir destDir) (opsFor tree (destDir ++ p)) fs fs2
      [] h (deriv_opsFor cfs srcDir destDir p tree hwf hl)
      (by simp) (by simp)
  constructor
  · intro c hc
    subst hc
    have hst := hset (.mvfile (destDir ++ p) c)
      (Or.inr (by simp [opsFor]))
    simp only [Settled] at hst
    exact hst.2
  · intro es hes rel m hrel
    subst hes
    have hmem := lookup_mem_walkAbs rel (.dir es) m hrel
    have hop : opOfEntry (destDir ++ p) (rel, m)
        ∈ opsFor (.dir es) (destDir ++ p) := by
      simp only [opsFor]
      exact List.mem_map_of_mem _ hmem
    have hst := hset _ (Or.inr hop)
    constructor
    · intro c hc
      subst hc
      simp only [opOfEntry, Settled] at hst
      exact hst.2
    · intro es2 he2
      subst he2
      simp only [opOfEntry, Settled] at hst
      exact lookup_dir_of_dirsAlong _ fs2 hst

/-- Witness for C5 at a staged directory `s` holding file `b`, copied from
container path `d` to destination root `out`. -/
theorem processPath_mirrors_staged_tree_witness :
    (∀ c, (FsNode.dir [("s", FsNode.dir [("b", FsNode.file "y")])])
        = FsNode.file c →
      FsNode.lookup
        (.dir [("out", .dir [("d", .dir [("s", .dir [("b", .file "y")])])])])
        (["out"] ++ ["d"]) = some (.file c)) ∧
    (∀ es, (FsNode.dir [("s", FsNode.dir [("b", FsNode.file "y")])])
        = FsNode.dir es →
      ∀ rel m,
        FsNode.lookup (FsNode.dir [("s", FsNode.dir [("b", FsNode.file "y")])])
          rel = some m →
        (∀ c, m = FsNode.file c →
          FsNode.lookup
            (.dir [("out",
              .dir [("d", .dir [("s", .dir [("b", .file "y")])])])])
            (["out"] ++ ["d"] ++ rel) = some (.file c)) ∧
        (∀ es2, m = FsNode.dir es2 →
          ∃ es3, FsNode.lookup
            (.dir [("out",
              .dir [("d", .dir [("s", .dir [("b", .file "y")])])])])
            (["out"] ++ ["d"] ++ rel) = some (.dir es3))) :=
  processPath_mirrors_staged_tree
    (.dir [("d", .dir [("s", .dir [("b", .file "y")])])]) [] ["out"]
    (.dir []) (.dir [("out", .dir [("d", .dir [("s", .dir [("b", .file "y")])])])])
    ["d"] (.dir [("s", .dir [("b", .file "y")])]) rfl rfl rfl

/-- One loop iteration cannot panic if a staged file never targets the
filesystem root. -/
theorem processPath_not_panic (cfs : FsNode) (srcDir destDir : FsPath)
    (fs : FsNode) (p : FsPath)
    (hroot : ∀ c, FsNode.lookup cfs (srcDir ++ p) = some (.file c) →
      destDir ++ p ≠ []) :
    processPath cfs srcDir destDir fs p ≠ .error .panic := by
  cases hl : FsNode.lookup cfs (srcDir ++ p) with
  | none => simp [processPath, hl]
  | some tree =>
    have hne : ∀ c, tree = .file c → destDir ++ p ≠ [] := by
      intro c hc
      subst hc
      exact hroot c hl
    rw [processPath_eq_applyOps cfs srcDir destDir fs p tree hl hne]
    exact applyOps_not_panic _ fs

/-- C10: the two `unwrap` calls inside `copy_from_container` never panic:
`strip_prefix` always succeeds because every walk entry lies inside the
staging directory, and `destination.parent()` is `Some` in the single-file
branch under the precondition that a staged file never maps to the
filesystem root (the code's justification: the root cannot be a file). -/
theorem copy_from_container_never_panics (cfs : FsNode)
    (paths : List FsPath) (srcDir destDir : FsPath) (fs : FsNode)
    (hroot : ∀ p ∈ paths, ∀ c,
      FsNode.lookup cfs (srcDir ++ p) = some (.file c) → destDir ++ p ≠ []) :
    copy_from_container cfs paths srcDir destDir fs ≠ .error .panic := by
  induction paths generalizing fs with
  | nil => simp [copy_from_container]
  | cons p rest ih =>
    simp only [copy_from_container]
    cases hp : processPath cfs srcDir destDir fs p with
    | error e =>
      have hnp := processPath_not_panic cfs srcDir destDir fs p
        (hroot p (List.mem_cons_self _ _))
      rw [hp] at hnp
      simpa using hnp
    | ok fsA =>
      exact ih fsA (fun p2 hp2 c => hroot p2 (List.mem_cons_of_mem _ hp2) c)

/-- Witness for C10 at a two-path transfer (a file and a nested
directory). -/
theorem copy_from_container_never_panics_witness :
    copy_from_container
        (.dir [("f", .file "x"), ("d", .dir [("s", .dir [("b", .file "y")])])])
        [["f"], ["d"]] [] ["out"] (.dir [])
      ≠ .error .panic :=
  copy_from_container_never_panics
    (.dir [("f", .file "x"), ("d", .dir [("s", .dir [("b", .file "y")])])])
    [["f"], ["d"]] [] ["out"] (.dir [])
    (by
      intro p hp c hc
      simp only [List.mem_cons, List.mem_singleton] at hp
      rcases hp with hp | hp | hp
      · subst hp; simp
      · subst hp; simp
      · simp at hp)

end Docker
